import Mathlib

/-!
Shallow embedding of `pysrt/srtfile.py` (repository `caiyunapp/pysrt`).

Conventions of the embedding:
* Python `int` timestamps (`SubRipTime.ordinal`, milliseconds) become `Int`.
* A Python `dict` mapping language tags to text (`lang_map`) becomes an
  association list `LangMap := List (String × String)`; lookup takes the
  first matching key, which coincides with Python dict semantics whenever
  the key list has no duplicates (always true for actual Python dicts).
* `SubRipItem` (defined in `pysrt/srtitem.py`, which is not part of the
  sources at hand) is embedded by the fields `srtfile.py` reads:
  `index`, `start`/`end` ordinals, `text`, `lang_map`.
-/

/-- A language map: Python `dict` of language tag → text, as an
association list. -/
abbrev LangMap := List (String × String)

/-- First-match lookup in a `LangMap`; `none` models Python `key not in d`. -/
def dictGet (d : LangMap) (k : String) : Option String :=
  match d with
  | [] => none
  | (k2, v) :: rest => if k2 = k then some v else dictGet rest k

/-- The keys of a `LangMap` (Python `d.keys()`). -/
def dictKeys (d : LangMap) : List String := d.map Prod.fst

/-- Value produced by `merge_dict` for one key of the union:
`d1[key] + d2[key]` when the key is in both, otherwise the single value.
The `none, none` case never arises for keys drawn from the union. -/
def mergeVal (o1 o2 : Option String) : String :=
  match o1, o2 with
  | some a, some b => a ++ b
  | some a, none => a
  | none, some b => b
  | none, none => ""

/-- Embedding of `merge_dict(d1, d2)` (`srtfile.py` lines 432-439):
iterate over `set(list(d1.keys()) + list(d2.keys()))` and give each key
`d1[key] + d2[key]` if present in both, else the value of whichever map
holds it.  The Python `set` is modelled by deduplicating the concatenated
key lists (set iteration order is unspecified in Python and unobservable
through dict lookups). -/
def merge_dict (d1 d2 : LangMap) : LangMap :=
  ((dictKeys d1 ++ dictKeys d2).dedup).map
    (fun key => (key, mergeVal (dictGet d1 key) (dictGet d2 key)))

/-- Embedding of the `SubRipItem` fields used by `srtfile.py`.
`start`/`end_` are the millisecond ordinals of the two timestamps. -/
structure SubRipItem where
  index : Int := 0
  start : Int := 0
  end_ : Int := 0
  text : String := ""
  lang_map : LangMap := []
deriving DecidableEq, Repr, Inhabited

/-- Python `reduce(f, xs)` with no initial value: `reduce(f, [x]) = x`,
`reduce(f, x :: xs) = foldl f x xs`.  The empty case never arises at the
call sites in `srtfile.py` (the reduced lists are nonempty); it is given
the empty map. -/
def reduce1 (f : LangMap → LangMap → LangMap) : List LangMap → LangMap
  | [] => []
  | x :: xs => xs.foldl f x

/-- Indexing `xs[n]` on the embedded list.  Out-of-range indexes (never reached under
the loop guards of `match`) give the default item. -/
def getI (xs : List SubRipItem) (n : Nat) : SubRipItem := xs.getD n default

/-- State of the outer `while` loop of `SubRipFile.match`
(`srtfile.py` lines 343-348): the two pointers and the accumulated output. -/
structure MState where
  i : Nat
  j : Nat
  ret : List SubRipItem
deriving DecidableEq, Repr

/-- The record appended by `match`:
`SubRipItem(start=…, end=…, lang_map=…)`, index and text left at their
Python defaults. -/
def mkMatchItem (s e : Int) (m : LangMap) : SubRipItem :=
  { index := 0, start := s, end_ := e, text := "", lang_map := m }

/-- Structural-fuel form of the inner `while` of branch 1.2: one fuel unit
per iteration.  Used through `scanOther`, which supplies enough fuel; when
the fuel runs out (`other.length ≤ j` then) the while condition is false
anyway, so the truncation is never observable. -/
def scanOtherF (selfEnd : Int) (other : List SubRipItem) : Nat → Nat → Nat
  | 0, j => j
  | Nat.succ fuel, j =>
    if j + 1 < other.length ∧ (getI other (j + 1)).end_ - selfEnd < 1000 then
      scanOtherF selfEnd other fuel (j + 1)
    else j

/-- Inner `while` of branch 1.2 (`srtfile.py` line 378):
`while j+1 < other_num and other[j+1].end.ordinal - self[i].end.ordinal < 1000: j += 1`.
Returns the final value of `j`. -/
def scanOther (selfEnd : Int) (other : List SubRipItem) (j : Nat) : Nat :=
  scanOtherF selfEnd other (other.length - j) j

/-- Structural-fuel form of the inner `while` of branch 1.3, symmetric to
`scanOtherF`. -/
def scanSelfF (otherEnd : Int) (self : List SubRipItem) : Nat → Nat → Nat
  | 0, i => i
  | Nat.succ fuel, i =>
    if i + 1 < self.length ∧ (getI self (i + 1)).end_ - otherEnd < 1000 then
      scanSelfF otherEnd self fuel (i + 1)
    else i

/-- Inner `while` of branch 1.3 (`srtfile.py` line 397), symmetric to
`scanOther`: returns the final value of `i`. -/
def scanSelf (otherEnd : Int) (self : List SubRipItem) (i : Nat) : Nat :=
  scanSelfF otherEnd self (self.length - i) i

/-- One iteration of the outer `while` loop of `SubRipFile.match`
(`srtfile.py` lines 348-411), translated branch by branch:

* `|start_delta| ≤ 1000` and `|end_delta| ≤ 1000` (1.1): emit one record
  merging `self[i].lang_map` with `other[j].lang_map`; `i += 1; j += 1`.
* `|start_delta| ≤ 1000` and `end_delta > 1000` (1.2): if the guard
  `j+1 < other_num and other[j+1].end - self[i].end > 1000` holds, skip with
  `i += 1; j += 1`; otherwise run the inner while (`scanOther`), collect
  `other_bag = other[j..j2]`, and if `|other[j2].end - self[i].end| < 1000`
  emit one record over `self[i]`'s span whose `lang_map` reduces `merge_dict`
  over the bag's lang_maps only; then `i += 1; j = j2 + 1`.
* `|start_delta| ≤ 1000` and `end_delta < -1000` (1.3): symmetric, with the
  emitted record spanning `self[i2]` (the pointer `i` has been advanced by
  the inner while when the record is built); then `i = i2 + 1; j += 1`.
* `start_delta < -1000`: `i += 1`;  otherwise `j += 1`. -/
def matchStep (self other : List SubRipItem) (s : MState) : MState :=
  let si := getI self s.i
  let oj := getI other s.j
  let start_delta := si.start - oj.start
  let end_delta := si.end_ - oj.end_
  if start_delta.natAbs ≤ 1000 then
    if end_delta.natAbs ≤ 1000 then
      let l_map := reduce1 merge_dict [si.lang_map, oj.lang_map]
      ⟨s.i + 1, s.j + 1, s.ret ++ [mkMatchItem si.start si.end_ l_map]⟩
    else if 1000 < end_delta then
      if s.j + 1 < other.length ∧ 1000 < (getI other (s.j + 1)).end_ - si.end_ then
        ⟨s.i + 1, s.j + 1, s.ret⟩
      else
        let j2 := scanOther si.end_ other s.j
        let other_bag := (other.drop s.j).take (j2 - s.j + 1)
        if ((getI other j2).end_ - si.end_).natAbs < 1000 then
          let l_map := reduce1 merge_dict (other_bag.map SubRipItem.lang_map)
          ⟨s.i + 1, j2 + 1, s.ret ++ [mkMatchItem si.start si.end_ l_map]⟩
        else
          ⟨s.i + 1, j2 + 1, s.ret⟩
    else
      if s.i + 1 < self.length ∧ 1000 < (getI self (s.i + 1)).end_ - oj.end_ then
        ⟨s.i + 1, s.j + 1, s.ret⟩
      else
        let i2 := scanSelf oj.end_ self s.i
        let self_bag := (self.drop s.i).take (i2 - s.i + 1)
        if ((getI self i2).end_ - oj.end_).natAbs < 1000 then
          let l_map := reduce1 merge_dict (self_bag.map SubRipItem.lang_map)
          ⟨i2 + 1, s.j + 1,
            s.ret ++ [mkMatchItem (getI self i2).start (getI self i2).end_ l_map]⟩
        else
          ⟨i2 + 1, s.j + 1, s.ret⟩
  else if start_delta < -1000 then
    ⟨s.i + 1, s.j, s.ret⟩
  else
    ⟨s.i, s.j + 1, s.ret⟩

/-- The outer `while i < self_num and j < other_num` loop of `match`,
written with explicit fuel; `SubRipFile.match_` supplies fuel
`self_num + other_num`, which the termination theorem shows suffices for
the loop guard to have failed (so the fuelled loop equals the `while`). -/
def matchLoop (self other : List SubRipItem) : Nat → MState → MState
  | 0, s => s
  | Nat.succ fuel, s =>
    if s.i < self.length ∧ s.j < other.length then
      matchLoop self other fuel (matchStep self other s)
    else s

/-- All language keys of a collection, with one occurrence per record that
carries the key: the stream fed to `Counter` in
`ret.lang_stat = Counter(chain.from_iterable([i.lang_map.keys() for i in ret]))`
(`srtfile.py` line 413). -/
def allLangKeys (items : List SubRipItem) : List String :=
  (items.map (fun it => dictKeys it.lang_map)).flatten

/-- Lookup `ret.lang_stat[key]`: the `Counter` count of `key`. -/
def lang_stat (items : List SubRipItem) (key : String) : Nat :=
  (allLangKeys items).countP (fun k2 => k2 == key)

/-- Embedding of `ret.langs = [key for key in ret.lang_stat if ret.lang_stat[key] > int(len(ret)/10)]`
(`srtfile.py` line 414): the distinct keys whose count strictly exceeds
`len(ret) / 10` (Python `int(len/10)` on a nonnegative length is floor
division, i.e. `Nat` division). -/
def langsOf (items : List SubRipItem) : List String :=
  (allLangKeys items).dedup.filter (fun key => items.length / 10 < lang_stat items key)

/-- The result of `SubRipFile.match`: the emitted records plus the
`langs` metadata list. -/
structure SubRipFile where
  data : List SubRipItem := []
  langs : List String := []
deriving DecidableEq, Repr

/-- Embedding of `SubRipFile.match(self, other)` (`srtfile.py`
lines 337-416): run the two-pointer loop from `i = j = 0` with empty
output, then compute the language statistics of the emitted records. -/
def SubRipFile.match_ (self other : List SubRipItem) : SubRipFile :=
  let fin := matchLoop self other (self.length + other.length) ⟨0, 0, []⟩
  { data := fin.ret, langs := langsOf fin.ret }

-- ----------------------------------------------------------------------
-- Streaming parser (`SubRipFile.stream` with `ERROR_RAISE`)
-- ----------------------------------------------------------------------

/-- Python truthiness test `if source and all(source)`
(`srtfile.py` line 232): the buffered block is nonempty and every buffered
line is a nonempty string. -/
def truthyBlock (buf : List String) : Bool :=
  !buf.isEmpty && buf.all (fun l => l != "")

/-- The data carried by the error that `stream` raises under `ERROR_RAISE`:
after `error.args += (''.join(source),)` and
`error.args = (index,) + error.args`, the argument tuple is
`(line index, original message, raw block text)`. -/
structure RaiseError where
  lineIndex : Nat
  msg : String
  raw : String
deriving DecidableEq, Repr

/-- The body of the generator `SubRipFile.stream` (`srtfile.py`
lines 225-237) specialised to `error_handling = ERROR_RAISE`, as a fold
over the enumerated lines.  The block parser
`SubRipItem.from_lines` lives in `pysrt/srtitem.py`, which is not among
the sources, so it is a parameter `p`; per the source, only parse errors
(`except Error`) are handled.  The returned pair is (records the
generator yielded, error raised by `_handle_error`, if any). -/
def streamRaiseAux (p : List String → Except String SubRipItem) :
    List (Nat × String) → List String → List SubRipItem × Option RaiseError
  | [], _ => ([], none)
  | (idx, line) :: rest, buf =>
    if line.trim != "" then
      streamRaiseAux p rest (buf ++ [line])
    else if truthyBlock buf then
      match p buf with
      | Except.ok item =>
        let r := streamRaiseAux p rest []
        (item :: r.1, r.2)
      | Except.error m => ([], some ⟨idx, m, String.join buf⟩)
    else
      streamRaiseAux p rest []

/-- Embedding of `SubRipFile.stream(source_file, ERROR_RAISE)`: enumerate
`chain(source_file, '\n')` (the chained string `'\n'` contributes the
single synthetic line `"\n"`) and run the generator body. -/
def SubRipFile.stream_raise (p : List String → Except String SubRipItem)
    (source_file : List String) : List SubRipItem × Option RaiseError :=
  streamRaiseAux p ((source_file ++ ["\n"]).enum) []

/-- The blank-line-delimited block decomposition the spec describes: each
nonempty all-truthy run of non-blank lines, paired with the 0-based index
of its terminating blank line in `source_file` plus the synthetic trailing
blank line. -/
def blocksAux : List (Nat × String) → List String → List (Nat × List String)
  | [], _ => []
  | (idx, line) :: rest, buf =>
    if line.trim != "" then blocksAux rest (buf ++ [line])
    else if truthyBlock buf then (idx, buf) :: blocksAux rest []
    else blocksAux rest []

/-- The blocks of an input, per the spec's reading of the format. -/
def blocks (source_file : List String) : List (Nat × List String) :=
  blocksAux ((source_file ++ ["\n"]).enum) []

/-- Spec-side description of `RAISE`-mode streaming (written from the
spec's words, to be compared with `SubRipFile.stream_raise`): parse the
blocks in order; every record parsed before the first malformed block is
kept; at the first malformed block stop at once, reporting the 0-based
line index of the block's terminating blank line, the parser's message,
and the block's raw joined text; nothing after the failure is processed. -/
def specRaise (p : List String → Except String SubRipItem) :
    List (Nat × List String) → List SubRipItem × Option RaiseError
  | [] => ([], none)
  | (idx, src) :: rest =>
    match p src with
    | Except.ok item =>
      let r := specRaise p rest
      (item :: r.1, r.2)
    | Except.error m => ([], some ⟨idx, m, String.join src⟩)

-- ----------------------------------------------------------------------
-- Serializer (`SubRipFile.write_into`)
-- ----------------------------------------------------------------------

/-- Embedding of `SubRipFile.write_into` (`srtfile.py` lines 254-275).
`str(item)` is rendered by `SubRipItem.__str__` (in `pysrt/srtitem.py`,
not among the sources), so the rendering is a parameter; the output file
is the accumulated string.  Per record: take `str(item)`, replace every
`'\n'` by the configured eol when the eol differs from `'\n'`, write it,
and append one eol unless the written text already ends with
`2 * output_eol`. -/
def SubRipFile.write_into (render : SubRipItem → String) (output_eol : String)
    (items : List SubRipItem) : String :=
  items.foldl (fun acc item =>
    let string_repr := render item
    let string_repr :=
      if output_eol ≠ "\n" then string_repr.replace "\n" output_eol else string_repr
    let acc := acc ++ string_repr
    if ¬ string_repr.endsWith (output_eol ++ output_eol) then acc ++ output_eol
    else acc) ""

/-- Spec-side rendering of a single record (written from the spec's words,
to be compared with `SubRipFile.write_into`): the record's string
representation with embedded `'\n'` normalized to the configured eol
(when the eol is `'\n'` itself the normalization is the identity, which
the source realizes by skipping the replace), followed by exactly one eol
separator unless the rendered text already ends with two consecutive
eol sequences. -/
def renderedBlock (render : SubRipItem → String) (output_eol : String)
    (item : SubRipItem) : String :=
  let s := render item
  let s := if output_eol ≠ "\n" then s.replace "\n" output_eol else s
  if ¬ s.endsWith (output_eol ++ output_eol) then s ++ output_eol else s

/-- Concatenation of a list of strings, in order. -/
def concatStrings : List String → String
  | [] => ""
  | s :: rest => s ++ concatStrings rest

/-- Spec-side serializer: the concatenation, in order, of each record's
rendered block. -/
def writeIntoSpec (render : SubRipItem → String) (output_eol : String)
    (items : List SubRipItem) : String :=
  concatStrings (items.map (renderedBlock render output_eol))

-- ----------------------------------------------------------------------
-- `slice` / `shift` over an explicit heap (record aliasing)
-- ----------------------------------------------------------------------

/-- A bound argument of `slice` as a Python value: its truthiness (what
`if starts_before:` tests) and the millisecond ordinal it compares as.
`Option.none` models the default argument `None` (falsy). -/
structure PyTime where
  truthy : Bool
  val : Int
deriving DecidableEq, Repr

/-- Python truthiness of a bound argument (`None` is falsy). -/
def pyTruthy : Option PyTime → Bool
  | none => false
  | some t => t.truthy

/-- The comparison value of a bound argument. -/
def bval : Option PyTime → Int
  | none => 0
  | some t => t.val

/-- A reference to a record: records live in an explicit heap (a list) so
that the sharing of `SubRipItem` objects between a `SubRipFile` and its
`slice` clones is observable. -/
abbrev Ref := Nat

/-- Dereference a record (out-of-heap references give the default item). -/
def lookupR (heap : List SubRipItem) (r : Ref) : SubRipItem := heap.getD r default

/-- Embedding of `SubRipFile.slice` (`srtfile.py` lines 68-99): copy the
collection, then narrow `clone.data` by one filter per truthy bound;
the records themselves are not copied, so the result is a list of the
same references. -/
def SubRipFile.slice (heap : List SubRipItem) (data : List Ref)
    (starts_before starts_after ends_before ends_after : Option PyTime) : List Ref :=
  let d1 := if pyTruthy starts_before then
      data.filter (fun r => decide ((lookupR heap r).start < bval starts_before))
    else data
  let d2 := if pyTruthy starts_after then
      d1.filter (fun r => decide (bval starts_after < (lookupR heap r).start))
    else d1
  let d3 := if pyTruthy ends_before then
      d2.filter (fun r => decide ((lookupR heap r).end_ < bval ends_before))
    else d2
  let d4 := if pyTruthy ends_after then
      d3.filter (fun r => decide (bval ends_after < (lookupR heap r).end_))
    else d3
  d4

/-- Modelled from the spec: `SubRipItem.shift` (defined in
`pysrt/srtitem.py`, which is not among the sources) mutates the item in
place, applying `ordinal = ordinal * ratio + offset_ms` to both
timestamps; with the default `ratio = 1.0` this adds the offset to the
start and end ordinals. -/
def shiftItem (ms : Int) (it : SubRipItem) : SubRipItem :=
  { it with start := it.start + ms, end_ := it.end_ + ms }

/-- Embedding of `SubRipFile.shift` (`srtfile.py` lines 117-132):
`for item in self: item.shift(...)` — each referenced record is updated
in the heap, in order. -/
def SubRipFile.shift (heap : List SubRipItem) (data : List Ref) (ms : Int) :
    List SubRipItem :=
  data.foldl (fun h r => h.set r (shiftItem ms (lookupR h r))) heap

/-- The conjunction of the supplied strict comparisons, as the spec words
the `slice` contract: a bound that is not truthy imposes no constraint. -/
def boundPred (heap : List SubRipItem) (sb sa eb ea : Option PyTime) (r : Ref) : Bool :=
  (!pyTruthy sb || decide ((lookupR heap r).start < bval sb)) &&
  (!pyTruthy sa || decide (bval sa < (lookupR heap r).start)) &&
  (!pyTruthy eb || decide ((lookupR heap r).end_ < bval eb)) &&
  (!pyTruthy ea || decide (bval ea < (lookupR heap r).end_))

-- ----------------------------------------------------------------------
-- `clean_indexes`
-- ----------------------------------------------------------------------

/-- Modelled from the spec: the ordering `SubRipItem.__lt__` used by
`self.sort()` lives in `pysrt/srtitem.py`, which is not among the
sources; per the spec, records sort ascending by `(start, end)`. -/
def itemLe (a b : SubRipItem) : Prop :=
  a.start < b.start ∨ (a.start = b.start ∧ a.end_ ≤ b.end_)

instance : DecidableRel itemLe := fun a b => by
  unfold itemLe; infer_instance

/-- Embedding of `for index, item in enumerate(self): item.index = index + 1`
(`srtfile.py` lines 142-143), started at `n`. -/
def reindexFrom : Int → List SubRipItem → List SubRipItem
  | _, [] => []
  | n, it :: rest => { it with index := n } :: reindexFrom (n + 1) rest

/-- Embedding of `SubRipFile.clean_indexes` (`srtfile.py` lines 134-143):
stable-sort the records (Python's `list.sort`; modelled by insertion
sort, also stable), then reassign indexes `1..N` in the new order. -/
def SubRipFile.clean_indexes (items : List SubRipItem) : List SubRipItem :=
  reindexFrom 1 (List.insertionSort itemLe items)

-- ----------------------------------------------------------------------
-- Concrete inputs (the spec's §8 alignment scenario, and witnesses)
-- ----------------------------------------------------------------------

/-- The self track of the spec's alignment scenario:
`{start=1000, end=3000, lang_map={"en":"hi"}}`. -/
def alignSelf : List SubRipItem :=
  [{ index := 0, start := 1000, end_ := 3000, text := "", lang_map := [("en", "hi")] }]

/-- The other track of the spec's alignment scenario:
`{start=1050, end=1900, lang_map={"fr":"bonjour"}}` and
`{start=1950, end=2950, lang_map={"fr":"monde"}}`. -/
def alignOther : List SubRipItem :=
  [{ index := 0, start := 1050, end_ := 1900, text := "", lang_map := [("fr", "bonjour")] },
   { index := 0, start := 1950, end_ := 2950, text := "", lang_map := [("fr", "monde")] }]

-- ======================================================================
-- Theorems
-- ======================================================================

theorem dictGet_isSome_iff_mem (d : LangMap) (k : String) :
    (dictGet d k).isSome = true ↔ k ∈ dictKeys d := by
  induction d with
  | nil => simp [dictGet, dictKeys]
  | cons p rest ih =>
    obtain ⟨k2, v⟩ := p
    by_cases h : k2 = k
    · subst h
      simp [dictGet, dictKeys]
    · simp [dictGet, dictKeys, h, ih]
      intro hk
      exact absurd hk.symm h

theorem dictGet_map_keyed (l : List String) (f : String → String) (k : String) :
    dictGet (l.map (fun key => (key, f key))) k
      = if k ∈ l then some (f k) else none := by
  induction l with
  | nil => simp [dictGet]
  | cons a rest ih =>
    by_cases h : a = k
    · subst h
      simp [dictGet, ih]
    · have h' : ¬ k = a := fun hk => h hk.symm
      simp [dictGet, h, ih, h']

/-- C3: `merge_dict` computes, pointwise, exactly the union-with-concatenation
of its two arguments: the result holds a key iff one of the inputs does; a
key in both maps to `d1`'s value followed directly by `d2`'s value; a key in
exactly one map keeps that map's value unchanged. -/
theorem merge_dict_pointwise (d1 d2 : LangMap) (k : String) :
    dictGet (merge_dict d1 d2) k =
      match dictGet d1 k, dictGet d2 k with
      | some a, some b => some (a ++ b)
      | some a, none => some a
      | none, some b => some b
      | none, none => none := by
  have hmem : k ∈ (dictKeys d1 ++ dictKeys d2).dedup ↔
      k ∈ dictKeys d1 ∨ k ∈ dictKeys d2 := by
    simp [List.mem_dedup]
  have h := dictGet_map_keyed ((dictKeys d1 ++ dictKeys d2).dedup)
    (fun key => mergeVal (dictGet d1 key) (dictGet d2 key)) k
  rw [merge_dict, h]
  rcases h1 : dictGet d1 k with _ | a <;> rcases h2 : dictGet d2 k with _ | b
  · rw [if_neg]
    intro hk
    rcases hmem.mp hk with hk1 | hk2
    · have := (dictGet_isSome_iff_mem d1 k).mpr hk1
      rw [h1] at this; simp at this
    · have := (dictGet_isSome_iff_mem d2 k).mpr hk2
      rw [h2] at this; simp at this
  · rw [if_pos]
    · rfl
    · exact hmem.mpr (Or.inr ((dictGet_isSome_iff_mem d2 k).mp (by simp [h2])))
  · rw [if_pos]
    · rfl
    · exact hmem.mpr (Or.inl ((dictGet_isSome_iff_mem d1 k).mp (by simp [h1])))
  · rw [if_pos]
    · rfl
    · exact hmem.mpr (Or.inl ((dictGet_isSome_iff_mem d1 k).mp (by simp [h1])))

theorem scanOtherF_ge (e : Int) (other : List SubRipItem) :
    ∀ fuel j, j ≤ scanOtherF e other fuel j := by
  intro fuel
  induction fuel with
  | zero => intro j; exact Nat.le_refl j
  | succ n ih =>
    intro j
    rw [scanOtherF]
    split
    · exact Nat.le_trans (Nat.le_succ j) (ih (j + 1))
    · exact Nat.le_refl j

theorem scanOther_ge (e : Int) (other : List SubRipItem) (j : Nat) :
    j ≤ scanOther e other j :=
  scanOtherF_ge e other (other.length - j) j

theorem scanSelfF_ge (e : Int) (self : List SubRipItem) :
    ∀ fuel i, i ≤ scanSelfF e self fuel i := by
  intro fuel
  induction fuel with
  | zero => intro i; exact Nat.le_refl i
  | succ n ih =>
    intro i
    rw [scanSelfF]
    split
    · exact Nat.le_trans (Nat.le_succ i) (ih (i + 1))
    · exact Nat.le_refl i

theorem scanSelf_ge (e : Int) (self : List SubRipItem) (i : Nat) :
    i ≤ scanSelf e self i :=
  scanSelfF_ge e self (self.length - i) i

theorem matchStep_mono (self other : List SubRipItem) (s : MState) :
    s.i ≤ (matchStep self other s).i ∧ s.j ≤ (matchStep self other s).j ∧
    s.i + s.j < (matchStep self other s).i + (matchStep self other s).j := by
  have h1 := scanOther_ge (getI self s.i).end_ other s.j
  have h2 := scanSelf_ge (getI other s.j).end_ self s.i
  rw [matchStep]
  repeat' split
  all_goals simp only
  all_goals try (repeat' split)
  all_goals try simp only
  all_goals omega

theorem matchLoop_exits (self other : List SubRipItem) :
    ∀ fuel (s : MState), self.length + other.length ≤ fuel + s.i + s.j →
      ¬ ((matchLoop self other fuel s).i < self.length ∧
         (matchLoop self other fuel s).j < other.length) := by
  intro fuel
  induction fuel with
  | zero =>
    intro s h
    simp only [matchLoop]
    omega
  | succ n ih =>
    intro s h
    rw [matchLoop]
    by_cases hg : s.i < self.length ∧ s.j < other.length
    · rw [if_pos hg]
      apply ih
      have := matchStep_mono self other s
      omega
    · rw [if_neg hg]
      exact hg

/-- C5: the aligner terminates within `self_num + other_num` outer
iterations.  Every iteration of the outer loop leaves both pointers no
smaller and strictly increases at least one of them (their sum grows),
and with fuel `self_num + other_num` — one step per unit of pointer
progress available — the loop guard `i < self_num and j < other_num` has
already failed, i.e. the loop has exited as soon as either pointer
reached the end of its collection. -/
theorem match_terminates (self other : List SubRipItem) :
    (∀ s : MState, s.i < self.length ∧ s.j < other.length →
      s.i ≤ (matchStep self other s).i ∧ s.j ≤ (matchStep self other s).j ∧
      s.i + s.j < (matchStep self other s).i + (matchStep self other s).j) ∧
    ¬ ((matchLoop self other (self.length + other.length) ⟨0, 0, []⟩).i < self.length ∧
       (matchLoop self other (self.length + other.length) ⟨0, 0, []⟩).j < other.length) := by
  constructor
  · intro s _
    exact matchStep_mono self other s
  · exact matchLoop_exits self other (self.length + other.length) ⟨0, 0, []⟩ (by simp)

/-- Witness for C5 at the concrete scenario tracks: instantiating the
termination theorem at `alignSelf`/`alignOther` and the initial state. -/
theorem match_terminates_witness :
    ((⟨0, 0, []⟩ : MState).i + (⟨0, 0, []⟩ : MState).j <
      (matchStep alignSelf alignOther ⟨0, 0, []⟩).i +
      (matchStep alignSelf alignOther ⟨0, 0, []⟩).j) ∧
    ¬ ((matchLoop alignSelf alignOther (alignSelf.length + alignOther.length)
          ⟨0, 0, []⟩).i < alignSelf.length ∧
       (matchLoop alignSelf alignOther (alignSelf.length + alignOther.length)
          ⟨0, 0, []⟩).j < alignOther.length) :=
  ⟨((match_terminates alignSelf alignOther).1 ⟨0, 0, []⟩ (by decide)).2.2,
    (match_terminates alignSelf alignOther).2⟩

/-- C1: evaluating the embedded `match` on the spec's §8 alignment
scenario.  Exactly one record is emitted, spanning 1000..3000, but its
`lang_map` is `{"fr": "bonjourmonde"}`: branch 1.2 of the aligner
(`srtfile.py` line 387) reduces `merge_dict` over the accumulated
other-track records only, so the self track's `{"en": "hi"}` is dropped,
against the claimed `{"en": "hi", "fr": "bonjourmonde"}`. -/
theorem match_scenario_eval :
    (SubRipFile.match_ alignSelf alignOther).data
      = [mkMatchItem 1000 3000 [("fr", "bonjourmonde")]] ∧
    dictGet (getI (SubRipFile.match_ alignSelf alignOther).data 0).lang_map "en"
      = none := by
  constructor <;> rfl

/-- C2 counterexample: on the spec's §8 scenario the very first outer-loop
iteration takes the grouping branch (`|start_delta| = 50 ≤ 1000`,
`end_delta = 1100 > 1000`, skip guard false) and advances `j` from 0 to 2
— past BOTH records of the accumulated group, not past only one — and the
loop is already exhausted afterwards, so it never re-enters the branch to
drain a remainder of the group. -/
theorem matchStep_group_counterexample :
    ((1000 : Int) - 1050).natAbs ≤ 1000 ∧
    (1000 : Int) < 3000 - 1900 ∧
    (matchStep alignSelf alignOther ⟨0, 0, []⟩).j = 2 ∧
    ¬ (matchStep alignSelf alignOther ⟨0, 0, []⟩).j = 0 + 1 ∧
    ¬ ((matchStep alignSelf alignOther ⟨0, 0, []⟩).i < alignSelf.length ∧
       (matchStep alignSelf alignOther ⟨0, 0, []⟩).j < alignOther.length) := by
  refine ⟨by decide, by decide, rfl, by decide, by decide⟩

/-- C2 (amended): in the grouping branch of the aligner
(`|start_delta| ≤ 1000`, `end_delta > 1000`, skip guard not taken), a
single outer-loop iteration drains the entire accumulated group: the
inner `while` advances `j` to the last accumulated record
(`scanOther … ≥ j`) and the iteration ends with `i + 1` and that last
index plus one — the outer loop does not re-enter the branch to drain
remaining records of the same group. -/
theorem matchStep_group_drains (self other : List SubRipItem) (s : MState)
    (hsd : ((getI self s.i).start - (getI other s.j).start).natAbs ≤ 1000)
    (hed : 1000 < (getI self s.i).end_ - (getI other s.j).end_)
    (hg : ¬ (s.j + 1 < other.length ∧
        1000 < (getI other (s.j + 1)).end_ - (getI self s.i).end_)) :
    (matchStep self other s).i = s.i + 1 ∧
    (matchStep self other s).j = scanOther (getI self s.i).end_ other s.j + 1 ∧
    s.j ≤ scanOther (getI self s.i).end_ other s.j := by
  have hne : ¬ ((getI self s.i).end_ - (getI other s.j).end_).natAbs ≤ 1000 := by
    omega
  rw [matchStep]
  rw [if_pos hsd, if_neg hne, if_pos hed, if_neg hg]
  simp only
  refine ⟨?_, ?_, scanOther_ge (getI self s.i).end_ other s.j⟩ <;>
    (split <;> rfl)

/-- Witness for the amended C2 at the spec's §8 scenario: the branch
hypotheses hold at the initial state and the iteration ends with
`i = 1`, `j = scanOther 3000 alignOther 0 + 1 = 2`. -/
theorem matchStep_group_drains_witness :
    (matchStep alignSelf alignOther ⟨0, 0, []⟩).i = 0 + 1 ∧
    (matchStep alignSelf alignOther ⟨0, 0, []⟩).j
      = scanOther (getI alignSelf 0).end_ alignOther 0 + 1 ∧
    (0 : Nat) ≤ scanOther (getI alignSelf 0).end_ alignOther 0 :=
  matchStep_group_drains alignSelf alignOther ⟨0, 0, []⟩
    (by decide) (by decide) (by decide)

theorem write_into_go (render : SubRipItem → String) (output_eol : String) :
    ∀ (items : List SubRipItem) (acc : String),
      items.foldl (fun acc item =>
        let string_repr := render item
        let string_repr :=
          if output_eol ≠ "\n" then string_repr.replace "\n" output_eol
          else string_repr
        let acc := acc ++ string_repr
        if ¬ string_repr.endsWith (output_eol ++ output_eol) then acc ++ output_eol
        else acc) acc
      = acc ++ writeIntoSpec render output_eol items := by
  intro items
  induction items with
  | nil =>
    intro acc
    simp [writeIntoSpec, concatStrings]
  | cons it rest ih =>
    intro acc
    rw [List.foldl_cons, ih]
    simp only [writeIntoSpec, List.map_cons, concatStrings, renderedBlock]
    split <;> split <;> simp [String.append_assoc]

/-- C6: the serializer `write_into` produces exactly the in-order
concatenation of per-record blocks, where each record contributes its
string representation with embedded `'\n'` normalized to the configured
eol (when the eol is `'\n'` itself the replace is skipped, and is the
identity), followed by exactly one eol separator — except that a record
whose rendered text already ends with two consecutive eol sequences
receives no extra trailing separator. -/
theorem write_into_eq_spec (render : SubRipItem → String) (output_eol : String)
    (items : List SubRipItem) :
    SubRipFile.write_into render output_eol items
      = writeIntoSpec render output_eol items := by
  rw [SubRipFile.write_into, write_into_go]
  exact (writeIntoSpec render output_eol items).empty_append

theorem streamRaiseAux_eq_specRaise (p : List String → Except String SubRipItem) :
    ∀ (el : List (Nat × String)) (buf : List String),
      streamRaiseAux p el buf = specRaise p (blocksAux el buf) := by
  intro el
  induction el with
  | nil => intro buf; rfl
  | cons hd rest ih =>
    intro buf
    obtain ⟨idx, line⟩ := hd
    rw [streamRaiseAux, blocksAux]
    by_cases h1 : (line.trim != "") = true
    · rw [if_pos h1, if_pos h1]
      exact ih (buf ++ [line])
    · rw [if_neg h1, if_neg h1]
      by_cases h2 : truthyBlock buf = true
      · rw [if_pos h2, if_pos h2, specRaise]
        cases hp : p buf with
        | ok item => rw [ih []]
        | error m => rfl
      · rw [if_neg h2, if_neg h2]
        exact ih []

/-- C4: with the `RAISE` error policy, the streaming parser is exactly the
block-by-block reference behaviour `specRaise` over the blank-line block
decomposition: records of the well-formed blocks preceding the first
malformed block are all yielded (none is lost); at the first malformed
block parsing aborts at once — no later block contributes — and the
propagated error carries, in order, the 0-based line index of the failing
block's terminating blank line, the parse error's own message, and the
block's raw joined text.  This holds for every block parser `p`, in
particular for `SubRipItem.from_lines`. -/
theorem stream_raise_spec (p : List String → Except String SubRipItem)
    (source_file : List String) :
    SubRipFile.stream_raise p source_file = specRaise p (blocks source_file) :=
  streamRaiseAux_eq_specRaise p ((source_file ++ ["\n"]).enum) []

theorem lookupR_set_ne (heap : List SubRipItem) (r2 r : Ref) (x : SubRipItem)
    (h : r2 ≠ r) : lookupR (heap.set r2 x) r = lookupR heap r := by
  simp [lookupR, List.getD_eq_getElem?_getD, List.getElem?_set_ne h]

theorem lookupR_set_self (heap : List SubRipItem) (r : Ref) (x : SubRipItem)
    (h : r < heap.length) : lookupR (heap.set r x) r = x := by
  simp [lookupR, List.getD_eq_getElem?_getD, List.getElem?_set_self h]

theorem shift_length (ms : Int) :
    ∀ (refs : List Ref) (heap : List SubRipItem),
      (SubRipFile.shift heap refs ms).length = heap.length := by
  intro refs
  induction refs with
  | nil => intro heap; rfl
  | cons x rest ih =>
    intro heap
    rw [SubRipFile.shift, List.foldl_cons]
    have := ih (heap.set x (shiftItem ms (lookupR heap x)))
    rw [SubRipFile.shift] at this
    rw [this, List.length_set]

theorem lookupR_shift_not_mem (ms : Int) :
    ∀ (refs : List Ref) (heap : List SubRipItem) (r : Ref), r ∉ refs →
      lookupR (SubRipFile.shift heap refs ms) r = lookupR heap r := by
  intro refs
  induction refs with
  | nil => intro heap r _; rfl
  | cons x rest ih =>
    intro heap r hr
    rw [SubRipFile.shift, List.foldl_cons]
    have hx : x ≠ r := fun hxr => hr (hxr ▸ List.mem_cons_self x rest)
    have hrest : r ∉ rest := fun hm => hr (List.mem_cons_of_mem x hm)
    have := ih (heap.set x (shiftItem ms (lookupR heap x))) r hrest
    rw [SubRipFile.shift] at this
    rw [this, lookupR_set_ne _ _ _ _ hx]

theorem lookupR_shift_mem (ms : Int) :
    ∀ (refs : List Ref) (heap : List SubRipItem) (r : Ref),
      refs.Nodup → r ∈ refs → r < heap.length →
      lookupR (SubRipFile.shift heap refs ms) r = shiftItem ms (lookupR heap r) := by
  intro refs
  induction refs with
  | nil => intro heap r _ hr; cases hr
  | cons x rest ih =>
    intro heap r hnd hr hlen
    rw [SubRipFile.shift, List.foldl_cons]
    rcases List.mem_cons.mp hr with hrx | hrrest
    · subst hrx
      have hnotin : r ∉ rest := (List.nodup_cons.mp hnd).1
      have := lookupR_shift_not_mem ms rest
        (heap.set r (shiftItem ms (lookupR heap r))) r hnotin
      rw [SubRipFile.shift] at this
      rw [this, lookupR_set_self _ _ _ hlen]
    · have hx : x ≠ r := fun hxr =>
        (List.nodup_cons.mp hnd).1 (hxr ▸ hrrest)
      have := ih (heap.set x (shiftItem ms (lookupR heap x))) r
        (List.nodup_cons.mp hnd).2 hrrest (by rw [List.length_set]; exact hlen)
      rw [SubRipFile.shift] at this
      rw [this, lookupR_set_ne _ _ _ _ hx]

theorem filter_opt {α : Type} (c : Bool) (p : α → Bool) (l : List α) :
    (if c = true then l.filter p else l) = l.filter (fun a => !c || p a) := by
  cases c
  · simp
  · simp

theorem slice_eq_filter (heap : List SubRipItem) (data : List Ref)
    (sb sa eb ea : Option PyTime) :
    SubRipFile.slice heap data sb sa eb ea
      = data.filter (boundPred heap sb sa eb ea) := by
  rw [SubRipFile.slice]
  try simp only
  rw [filter_opt, filter_opt, filter_opt, filter_opt,
    List.filter_filter, List.filter_filter, List.filter_filter]
  refine List.filter_congr ?_
  intro r _
  rw [boundPred]
  cases (!pyTruthy sb || decide ((lookupR heap r).start < bval sb)) <;>
    cases (!pyTruthy sa || decide (bval sa < (lookupR heap r).start)) <;>
    cases (!pyTruthy eb || decide ((lookupR heap r).end_ < bval eb)) <;>
    cases (!pyTruthy ea || decide (bval ea < (lookupR heap r).end_)) <;>
    rfl

/-- C7: `slice` returns exactly the references of the original collection
satisfying the conjunction of the supplied strict comparisons — a sublist
of the original reference list, the record objects themselves not copied —
and consequently, shifting the records reached through the sliced
collection mutates the very records the original collection refers to:
after the shift, dereferencing any sliced reference (which the original
collection also contains) reads the shifted record. -/
theorem slice_aliasing (heap : List SubRipItem) (data : List Ref)
    (sb sa eb ea : Option PyTime)
    (hnd : data.Nodup) (hrange : ∀ r ∈ data, r < heap.length) :
    SubRipFile.slice heap data sb sa eb ea
      = data.filter (boundPred heap sb sa eb ea) ∧
    (SubRipFile.slice heap data sb sa eb ea).Sublist data ∧
    (∀ (ms : Int) (r : Ref), r ∈ SubRipFile.slice heap data sb sa eb ea →
      r ∈ data ∧
      lookupR (SubRipFile.shift heap (SubRipFile.slice heap data sb sa eb ea) ms) r
        = shiftItem ms (lookupR heap r)) := by
  have hf := slice_eq_filter heap data sb sa eb ea
  refine ⟨hf, ?_, ?_⟩
  · rw [hf]
    exact List.filter_sublist data
  · intro ms r hr
    have hmem : r ∈ data := by
      rw [hf] at hr
      exact List.mem_of_mem_filter hr
    refine ⟨hmem, ?_⟩
    refine lookupR_shift_mem ms _ heap r ?_ hr (hrange r hmem)
    rw [hf]
    exact hnd.filter (boundPred heap sb sa eb ea)

/-- Witness for C7: a one-record heap, `data = [0]`, no bounds; the slice
keeps reference 0 and shifting the slice by 7 is visible through the
original collection's reference 0. -/
theorem slice_aliasing_witness :
    (0 : Ref) ∈ [(0 : Ref)] ∧
    lookupR (SubRipFile.shift [mkMatchItem 5 10 []]
        (SubRipFile.slice [mkMatchItem 5 10 []] [0] none none none none) 7) 0
      = shiftItem 7 (lookupR [mkMatchItem 5 10 []] 0) :=
  (slice_aliasing [mkMatchItem 5 10 []] [0] none none none none
    (by decide) (by decide)).2.2 7 0 (by decide)

/-- C10: `slice` treats a falsy bound argument exactly like an absent one —
replacing any of the four bounds by a falsy value (`truthy = false`, e.g.
a zero time, which Python evaluates as falsy when given as `0`
milliseconds or an empty time dict) leaves the result identical to the
call without that bound; in particular `slice(starts_after=falsy-zero)`
applies no filtering at all and returns every record, including records
that do not start strictly after time zero. -/
theorem slice_falsy_bound (heap : List SubRipItem) (data : List Ref)
    (sb sa eb ea : Option PyTime) (b : PyTime) (hb : b.truthy = false) :
    SubRipFile.slice heap data (some b) sa eb ea
      = SubRipFile.slice heap data none sa eb ea ∧
    SubRipFile.slice heap data sb (some b) eb ea
      = SubRipFile.slice heap data sb none eb ea ∧
    SubRipFile.slice heap data sb sa (some b) ea
      = SubRipFile.slice heap data sb sa none ea ∧
    SubRipFile.slice heap data sb sa eb (some b)
      = SubRipFile.slice heap data sb sa eb none ∧
    SubRipFile.slice heap data none (some b) none none = data := by
  refine ⟨?_, ?_, ?_, ?_, ?_⟩ <;>
    simp [SubRipFile.slice, pyTruthy, hb]

/-- Witness for C10: the falsy bound `⟨false, 0⟩` (time zero) as
`starts_after` on a heap whose single record starts at time 0 — which
does not start strictly after 0 — still returns every record. -/
theorem slice_falsy_bound_witness :
    SubRipFile.slice [mkMatchItem 0 4 []] [0] none (some ⟨false, 0⟩) none none
      = [0] :=
  (slice_falsy_bound [mkMatchItem 0 4 []] [0] none none none none
    ⟨false, 0⟩ rfl).2.2.2.2

instance : IsTotal SubRipItem itemLe :=
  ⟨by
    intro a b
    simp only [itemLe]
    omega⟩

instance : IsTrans SubRipItem itemLe :=
  ⟨by
    intro a b c hab hbc
    simp only [itemLe] at hab hbc ⊢
    omega⟩

theorem reindexFrom_length : ∀ (l : List SubRipItem) (n : Int),
    (reindexFrom n l).length = l.length := by
  intro l
  induction l with
  | nil => intro n; rfl
  | cons it rest ih =>
    intro n
    rw [reindexFrom, List.length_cons, List.length_cons, ih]

theorem reindexFrom_override : ∀ (l : List SubRipItem) (n m : Int),
    reindexFrom n (reindexFrom m l) = reindexFrom n l := by
  intro l
  induction l with
  | nil => intro n m; rfl
  | cons it rest ih =>
    intro n m
    rw [reindexFrom, reindexFrom, reindexFrom, ih]

theorem mem_reindexFrom : ∀ (l : List SubRipItem) (n : Int) (b : SubRipItem),
    b ∈ reindexFrom n l → ∃ a, a ∈ l ∧ b.start = a.start ∧ b.end_ = a.end_ := by
  intro l
  induction l with
  | nil =>
    intro n b hb
    rw [reindexFrom] at hb
    cases hb
  | cons it rest ih =>
    intro n b hb
    rw [reindexFrom] at hb
    rcases List.mem_cons.mp hb with h1 | h2
    · exact ⟨it, List.mem_cons_self it rest, by rw [h1], by rw [h1]⟩
    · obtain ⟨a, ha, h3, h4⟩ := ih (n + 1) b h2
      exact ⟨a, List.mem_cons_of_mem it ha, h3, h4⟩

theorem pairwise_reindexFrom {l : List SubRipItem}
    (h : List.Pairwise itemLe l) : ∀ n, List.Pairwise itemLe (reindexFrom n l) := by
  induction h with
  | nil => intro n; rw [reindexFrom]; exact List.Pairwise.nil
  | @cons it rest hhead _ ih =>
    intro n
    rw [reindexFrom]
    refine List.Pairwise.cons ?_ (ih (n + 1))
    intro b hb
    obtain ⟨a, ha, hs, he⟩ := mem_reindexFrom rest (n + 1) b hb
    have hit := hhead a ha
    simp only [itemLe, hs, he] at hit ⊢
    exact hit

theorem reindexFrom_indexes : ∀ (l : List SubRipItem) (n : Int),
    (reindexFrom n l).map SubRipItem.index
      = (List.range l.length).map (fun k : Nat => n + (k : Int)) := by
  intro l
  induction l with
  | nil => intro n; rfl
  | cons it rest ih =>
    intro n
    rw [reindexFrom, List.map_cons, ih, List.length_cons,
      List.range_succ_eq_map, List.map_cons, List.map_map]
    refine congrArg₂ List.cons (by simp) ?_
    refine List.map_congr_left ?_
    intro k _
    simp [Function.comp]
    ring

/-- C8: `clean_indexes` sorts the records ascending by `(start, end)`,
reassigns indexes contiguously `1..N` in the new order, and is
idempotent: a second application changes neither the order nor the
indexes. -/
theorem clean_indexes_idempotent (items : List SubRipItem) :
    List.Pairwise itemLe (SubRipFile.clean_indexes items) ∧
    (SubRipFile.clean_indexes items).map SubRipItem.index
      = (List.range items.length).map (fun k : Nat => (1 : Int) + (k : Int)) ∧
    SubRipFile.clean_indexes (SubRipFile.clean_indexes items)
      = SubRipFile.clean_indexes items := by
  have hsorted : List.Sorted itemLe (List.insertionSort itemLe items) :=
    List.sorted_insertionSort itemLe items
  have hpair : List.Pairwise itemLe (SubRipFile.clean_indexes items) := by
    rw [SubRipFile.clean_indexes]
    exact pairwise_reindexFrom hsorted 1
  refine ⟨hpair, ?_, ?_⟩
  · rw [SubRipFile.clean_indexes, reindexFrom_indexes,
      (List.perm_insertionSort itemLe items).length_eq]
  · conv_lhs => rw [SubRipFile.clean_indexes]
    rw [(List.Sorted.insertionSort_eq hpair : _)]
    rw [SubRipFile.clean_indexes, reindexFrom_override]

theorem merge_dict_keys_nodup (d1 d2 : LangMap) :
    (dictKeys (merge_dict d1 d2)).Nodup := by
  rw [merge_dict, dictKeys, List.map_map]
  have : (Prod.fst ∘ fun key =>
      ((key : String), mergeVal (dictGet d1 key) (dictGet d2 key))) = id := by
    funext k
    rfl
  rw [this, List.map_id]
  exact List.nodup_dedup _

theorem foldl_merge_nodup (rest : List LangMap) :
    ∀ acc : LangMap, (dictKeys acc).Nodup →
      (dictKeys (rest.foldl merge_dict acc)).Nodup := by
  induction rest with
  | nil => intro acc h; exact h
  | cons d rest2 ih =>
    intro acc _
    rw [List.foldl_cons]
    exact ih (merge_dict acc d) (merge_dict_keys_nodup acc d)

theorem reduce1_merge_nodup (l : List LangMap)
    (h : ∀ d ∈ l, (dictKeys d).Nodup) :
    (dictKeys (reduce1 merge_dict l)).Nodup := by
  cases l with
  | nil => exact List.nodup_nil
  | cons x xs =>
    rw [reduce1]
    exact foldl_merge_nodup xs x (h x (List.mem_cons_self x xs))

theorem getI_lang_nodup (xs : List SubRipItem)
    (hxs : ∀ it ∈ xs, (dictKeys it.lang_map).Nodup) (n : Nat) :
    (dictKeys (getI xs n).lang_map).Nodup := by
  rw [getI]
  rcases Nat.lt_or_ge n xs.length with h | h
  · rw [List.getD_eq_getElem?_getD, List.getElem?_eq_getElem h]
    exact hxs xs[n] (List.getElem_mem h)
  · rw [List.getD_eq_getElem?_getD, List.getElem?_eq_none h]
    exact List.nodup_nil

theorem matchStep_preserves_good (self other : List SubRipItem) (s : MState)
    (hself : ∀ it ∈ self, (dictKeys it.lang_map).Nodup)
    (hother : ∀ it ∈ other, (dictKeys it.lang_map).Nodup)
    (hret : ∀ it ∈ s.ret, (dictKeys it.lang_map).Nodup) :
    ∀ it ∈ (matchStep self other s).ret, (dictKeys it.lang_map).Nodup := by
  rw [matchStep]
  repeat' split
  all_goals try simp only
  all_goals try (repeat' split)
  all_goals try simp only
  all_goals intro it hit
  all_goals
    first
    | exact hret it hit
    | · rcases List.mem_append.mp hit with hold | hnew
        · exact hret it hold
        · rw [List.mem_singleton] at hnew
          subst hnew
          simp only [mkMatchItem]
          refine reduce1_merge_nodup _ ?_
          intro d hd
          first
          | · rcases List.mem_cons.mp hd with h1 | h1
              · subst h1; exact getI_lang_nodup self hself s.i
              · rw [List.mem_singleton] at h1
                subst h1; exact getI_lang_nodup other hother s.j
          | · obtain ⟨it2, hit2, rfl⟩ := List.mem_map.mp hd
              first
              | exact hother it2 (List.mem_of_mem_drop (List.mem_of_mem_take hit2))
              | exact hself it2 (List.mem_of_mem_drop (List.mem_of_mem_take hit2))

theorem matchLoop_preserves_good (self other : List SubRipItem)
    (hself : ∀ it ∈ self, (dictKeys it.lang_map).Nodup)
    (hother : ∀ it ∈ other, (dictKeys it.lang_map).Nodup) :
    ∀ (fuel : Nat) (s : MState), (∀ it ∈ s.ret, (dictKeys it.lang_map).Nodup) →
      ∀ it ∈ (matchLoop self other fuel s).ret, (dictKeys it.lang_map).Nodup := by
  intro fuel
  induction fuel with
  | zero => intro s h; exact h
  | succ n ih =>
    intro s h
    rw [matchLoop]
    split
    · exact ih (matchStep self other s)
        (matchStep_preserves_good self other s hself hother h)
    · exact h

theorem countP_beq_of_nodup (key : String) :
    ∀ l : List String, l.Nodup →
      l.countP (fun k2 => k2 == key) = if key ∈ l then 1 else 0 := by
  intro l
  induction l with
  | nil => intro _; rfl
  | cons a rest ih =>
    intro h
    rw [List.countP_cons, ih (List.nodup_cons.mp h).2]
    by_cases hak : a = key
    · subst hak
      have hnotin : a ∉ rest := (List.nodup_cons.mp h).1
      simp [hnotin]
    · have : ¬ ((a == key) = true) := by
        simp [hak]
      simp only [this, if_false, Nat.add_zero]
      by_cases hk : key ∈ rest
      · simp [hk, List.mem_cons]
      · have : key ∉ a :: rest := by
          intro hc
          rcases List.mem_cons.mp hc with h1 | h1
          · exact hak h1.symm
          · exact hk h1
        simp [hk, this]

theorem lang_stat_eq_countP (key : String) :
    ∀ items : List SubRipItem, (∀ it ∈ items, (dictKeys it.lang_map).Nodup) →
      lang_stat items key
        = items.countP (fun it => decide (key ∈ dictKeys it.lang_map)) := by
  intro items
  induction items with
  | nil => intro _; rfl
  | cons it rest ih =>
    intro h
    rw [lang_stat, allLangKeys, List.map_cons, List.flatten_cons,
      List.countP_append, List.countP_cons]
    have h1 : (dictKeys it.lang_map).countP (fun k2 => k2 == key)
        = if key ∈ dictKeys it.lang_map then 1 else 0 :=
      countP_beq_of_nodup key _ (h it (List.mem_cons_self it rest))
    have h2 := ih (fun it2 hit2 => h it2 (List.mem_cons_of_mem it hit2))
    rw [lang_stat, allLangKeys] at h2
    rw [h1, h2]
    by_cases hk : key ∈ dictKeys it.lang_map <;> (simp [hk]; try omega)

theorem mem_langsOf (items : List SubRipItem) (key : String) :
    key ∈ langsOf items ↔
      key ∈ allLangKeys items ∧ items.length / 10 < lang_stat items key := by
  rw [langsOf, List.mem_filter]
  simp [List.mem_dedup]

/-- C9: after `match` produces its merged collection of `N` records, the
`langs` list contains exactly those language tags whose count — the
number of merged records whose `lang_map` contains the tag — strictly
exceeds `N / 10` (Python `int(N/10)`, i.e. floor); and the list is
metadata only: the `data` records are exactly the loop's emitted records,
neither removed nor altered by the statistics pass. -/
theorem match_langs_dominant (self other : List SubRipItem) (key : String)
    (hself : ∀ it ∈ self, (dictKeys it.lang_map).Nodup)
    (hother : ∀ it ∈ other, (dictKeys it.lang_map).Nodup) :
    (key ∈ (SubRipFile.match_ self other).langs ↔
      (SubRipFile.match_ self other).data.length / 10 <
        (SubRipFile.match_ self other).data.countP
          (fun it => decide (key ∈ dictKeys it.lang_map))) ∧
    (SubRipFile.match_ self other).data
      = (matchLoop self other (self.length + other.length) ⟨0, 0, []⟩).ret := by
  have hgood : ∀ it ∈ (matchLoop self other (self.length + other.length)
        ⟨0, 0, []⟩).ret, (dictKeys it.lang_map).Nodup :=
    matchLoop_preserves_good self other hself hother
      (self.length + other.length) ⟨0, 0, []⟩ (by intro it h; cases h)
  refine ⟨?_, rfl⟩
  have hlangs : (SubRipFile.match_ self other).langs
      = langsOf (matchLoop self other (self.length + other.length) ⟨0, 0, []⟩).ret :=
    rfl
  have hdata : (SubRipFile.match_ self other).data
      = (matchLoop self other (self.length + other.length) ⟨0, 0, []⟩).ret := rfl
  rw [hlangs, hdata, mem_langsOf,
    lang_stat_eq_countP key _ hgood]
  constructor
  · rintro ⟨_, h2⟩
    exact h2
  · intro h2
    refine ⟨?_, h2⟩
    have hpos : 0 < (matchLoop self other (self.length + other.length)
        ⟨0, 0, []⟩).ret.countP (fun it => decide (key ∈ dictKeys it.lang_map)) := by
      omega
    rw [List.countP_pos_iff] at hpos
    obtain ⟨it, hit, hkey⟩ := hpos
    rw [allLangKeys, List.mem_flatten]
    refine ⟨dictKeys it.lang_map, List.mem_map_of_mem _ hit, ?_⟩
    simpa using hkey

/-- Witness for C9 at the spec's §8 scenario tracks and the tag `"fr"`:
the merged collection has one record carrying `"fr"`, `1 > 1 / 10`, so
`"fr"` is dominant; the input lang_maps are genuine Python dicts
(no duplicate keys). -/
theorem match_langs_dominant_witness :
    ("fr" ∈ (SubRipFile.match_ alignSelf alignOther).langs ↔
      (SubRipFile.match_ alignSelf alignOther).data.length / 10 <
        (SubRipFile.match_ alignSelf alignOther).data.countP
          (fun it => decide ("fr" ∈ dictKeys it.lang_map))) ∧
    (SubRipFile.match_ alignSelf alignOther).data
      = (matchLoop alignSelf alignOther (alignSelf.length + alignOther.length)
          ⟨0, 0, []⟩).ret :=
  match_langs_dominant alignSelf alignOther "fr" (by decide) (by decide)
